import Mathlib

/-!
Verification of the plist version-update tool (`update_backup_version.py`).

The tool edits `Info.plist` / `Manifest.plist` files: it detects the plist
encoding (binary vs XML) from the file signature, loads the plist into a
nested-dictionary document, conditionally updates two version keys at a
nested key path, optionally snapshots the file to `<path>.bak`, and writes
the result back atomically via a temporary file.

Embedding choices:
- A plist value is a mutual inductive `PValue` / `PDict`; `PDict` is an
  insertion-ordered association list with Python-dict update semantics
  (updating an existing key keeps its position, a new key is appended).
- The filesystem is a function `String → Option (List Nat)` from paths to
  file contents (byte lists); every file operation is explicit state passing.
- Python's `plistlib` is standard-library code, not part of the repository;
  it is modelled by a concrete injective serializer whose binary output
  starts with the 8-byte `bplist00` signature and whose XML output starts
  with an `<?xml ve...` header, together with the matching deserializer.
  The properties of plistlib the program relies on (determinism, the binary
  signature, load inverting dump) hold for the model by construction.
-/

mutual

/-- Plist values: text, nested dictionary, or any other plist value kind
(integer, date, data, array...), abstracted as an opaque tag since the
program only ever compares values against strings, and Python's `==`
between a non-string plist value and a `str` is `False`. -/
inductive PValue : Type where
  | str : String → PValue
  | dict : PDict → PValue
  | other : Nat → PValue

/-- Insertion-ordered dictionary with string keys, mirroring a Python dict. -/
inductive PDict : Type where
  | nil : PDict
  | cons : String → PValue → PDict → PDict

end

/-- Lookup, like Python `d.get(k)`: first (unique) matching key. -/
def PDict.get : PDict → String → Option PValue
  | .nil, _ => none
  | .cons k v rest, key => if k = key then some v else rest.get key

/-- Assignment, like Python `d[k] = v`: overwrite in place if the key
exists (keeping its position), otherwise append at the end. -/
def PDict.set : PDict → String → PValue → PDict
  | .nil, key, val => .cons key val .nil
  | .cons k v rest, key, val =>
    if k = key then .cons k val rest else .cons k v (rest.set key val)

/-- Plist on-disk encodings, `plistlib.FMT_BINARY` / `plistlib.FMT_XML`. -/
inductive Fmt : Type where
  | binary : Fmt
  | xml : Fmt
deriving DecidableEq

/-- Error kinds surfaced by the core (spec section 7). -/
inductive PError : Type where
  | notFound : PError
  | parseError : PError
  | invalidStructure : PError
  | typeError : PError
  | ioError : PError
deriving DecidableEq

/-- A filesystem: paths to file contents (byte lists); `none` = no file. -/
def FS : Type := String → Option (List Nat)

/-- Write (create or overwrite) a file. -/
def fsWrite (fs : FS) (p : String) (c : List Nat) : FS :=
  fun q => if q = p then some c else fs q

/-- Remove a file. -/
def fsRemove (fs : FS) (p : String) : FS :=
  fun q => if q = p then none else fs q

/-- Atomic rename `os.replace src dst`: dst takes src's content, src is gone. -/
def fsReplace (fs : FS) (src dst : String) : FS :=
  fun q => if q = dst then fs src else if q = src then none else fs q

/-- Python `if os.path.exists(p): os.remove(p)`. -/
def fsRemoveIfExists (fs : FS) (p : String) : FS :=
  if (fs p).isSome then fsRemove fs p else fs

/-! ### Serializer / deserializer modelling `plistlib.dump` / `plistlib.load` -/

/-- The 8-byte binary plist signature, the bytes of `bplist00`. -/
def magicBytes : List Nat := [98, 112, 108, 105, 115, 116, 48, 48]

/-- Leading bytes of the XML plist encoding, the bytes of text starting
with an `<?xml ve...` header; what matters for the program is that it does
not start with the binary signature. -/
def xmlHeaderBytes : List Nat := [60, 63, 120, 109, 108, 32, 118, 101]

/-- Length-prefixed string encoding used inside serialized plists. -/
def encString (s : String) : List Nat :=
  s.length :: s.data.map Char.toNat

mutual

/-- Serialize a plist value (tag byte, then payload). -/
def serVal : PValue → List Nat
  | .str s => 0 :: encString s
  | .other n => 2 :: n :: []
  | .dict d => 1 :: serDict d

/-- Serialize a dictionary body (entry marker 9 per entry, end marker 3). -/
def serDict : PDict → List Nat
  | .nil => [3]
  | .cons k v rest => 9 :: (encString k ++ (serVal v ++ serDict rest))

end

/-- Decode a length-prefixed string. -/
def deString : List Nat → Option (String × List Nat)
  | [] => none
  | n :: rest =>
    if n ≤ rest.length then
      some (String.mk ((rest.take n).map Char.ofNat), rest.drop n)
    else none

mutual

/-- Decode one serialized plist value (fuel-indexed for termination). -/
def deVal : Nat → List Nat → Option (PValue × List Nat)
  | 0, _ => none
  | _ + 1, 0 :: rest =>
    match deString rest with
    | some (s, r) => some (.str s, r)
    | none => none
  | _ + 1, 2 :: n :: rest => some (.other n, rest)
  | fuel + 1, 1 :: rest =>
    match deDict fuel rest with
    | some (d, r) => some (.dict d, r)
    | none => none
  | _ + 1, _ => none

/-- Decode a serialized dictionary body. -/
def deDict : Nat → List Nat → Option (PDict × List Nat)
  | 0, _ => none
  | _ + 1, 3 :: rest => some (.nil, rest)
  | fuel + 1, 9 :: rest =>
    match deString rest with
    | some (k, r1) =>
      match deVal fuel r1 with
      | some (v, r2) =>
        match deDict fuel r2 with
        | some (d, r3) => some (.cons k v d, r3)
        | none => none
      | none => none
    | none => none
  | _ + 1, _ => none

end

mutual

/-- Structural size of a value, a lower bound on its serialized length. -/
def sizeV : PValue → Nat
  | .str _ => 1
  | .other _ => 1
  | .dict d => 1 + sizeD d

/-- Structural size of a dictionary body. -/
def sizeD : PDict → Nat
  | .nil => 1
  | .cons _ v rest => 1 + sizeV v + sizeD rest

end

/-- Full serialized bytes of a plist in a given format: signature/header
followed by the serialized root value (models `plistlib.dump`). -/
def dumpBytes (fmt : Fmt) (v : PValue) : List Nat :=
  (match fmt with
   | .binary => magicBytes
   | .xml => xmlHeaderBytes) ++ serVal v

/-- Parse a serialized root value, requiring all input to be consumed. -/
def parseRem (r : List Nat) : Option PValue :=
  match deVal r.length r with
  | some (v, []) => some v
  | _ => none

/-- Load a plist from raw bytes (models `plistlib.load`): strip whichever
signature is present, then parse the root value. -/
def loadBytes (bs : List Nat) : Option PValue :=
  if bs.take 8 = magicBytes then parseRem (bs.drop 8)
  else if bs.take 8 = xmlHeaderBytes then parseRem (bs.drop 8)
  else none

/-! ### Round-trip lemmas for the plistlib model -/

theorem deString_enc (s : String) (rest : List Nat) :
    deString (encString s ++ rest) = some (s, rest) := by
  have hlen : (s.data.map Char.toNat).length = s.length := by
    rw [List.length_map]; rfl
  show deString (s.length :: (s.data.map Char.toNat ++ rest)) = some (s, rest)
  rw [deString]
  have hle : s.length ≤ (s.data.map Char.toNat ++ rest).length := by
    rw [List.length_append, hlen]; omega
  rw [if_pos hle, List.take_left' hlen, List.drop_left' hlen]
  have hmap : (s.data.map Char.toNat).map Char.ofNat = s.data := by
    rw [List.map_map]
    have : ∀ l : List Char, l.map (fun c => Char.ofNat c.toNat) = l := by
      intro l
      induction l with
      | nil => rfl
      | cons c cs ih => simp [ih, Char.ofNat_toNat]
    exact this s.data
  rw [hmap]

theorem sizeV_pos (v : PValue) : 1 ≤ sizeV v := by
  cases v <;> simp only [sizeV] <;> omega

theorem sizeD_pos (d : PDict) : 1 ≤ sizeD d := by
  cases d <;> simp only [sizeD] <;> omega

mutual

theorem deVal_ser (v : PValue) (rest : List Nat) (fuel : Nat)
    (h : sizeV v ≤ fuel) : deVal fuel (serVal v ++ rest) = some (v, rest) := by
  match v, fuel with
  | v, 0 => exact absurd h (by have := sizeV_pos v; omega)
  | .str s, fuel + 1 =>
    show deVal (fuel + 1) (0 :: (encString s ++ rest)) = _
    rw [deVal]
    simp only [deString_enc]
  | .other n, fuel + 1 =>
    show deVal (fuel + 1) (2 :: n :: rest) = _
    rw [deVal]
  | .dict d, fuel + 1 =>
    have hd : sizeD d ≤ fuel := by
      have h' : 1 + sizeD d ≤ fuel + 1 := h
      omega
    show deVal (fuel + 1) (1 :: (serDict d ++ rest)) = _
    rw [deVal]
    simp only [deDict_ser d rest fuel hd]

theorem deDict_ser (d : PDict) (rest : List Nat) (fuel : Nat)
    (h : sizeD d ≤ fuel) : deDict fuel (serDict d ++ rest) = some (d, rest) := by
  match d, fuel with
  | d, 0 => exact absurd h (by have := sizeD_pos d; omega)
  | .nil, fuel + 1 =>
    show deDict (fuel + 1) (3 :: rest) = _
    rw [deDict]
  | .cons k v rest', fuel + 1 =>
    have hsz : 1 + sizeV v + sizeD rest' ≤ fuel + 1 := h
    have h1 := deVal_ser v (serDict rest' ++ rest) fuel (by omega)
    have h2 := deDict_ser rest' rest fuel (by omega)
    show deDict (fuel + 1)
        (9 :: ((encString k ++ (serVal v ++ serDict rest')) ++ rest)) = _
    rw [deDict]
    simp only [List.append_assoc, deString_enc, h1, h2]

end

mutual

theorem sizeV_le_length (v : PValue) : sizeV v ≤ (serVal v).length := by
  match v with
  | .str s => simp [sizeV, serVal]
  | .other n => simp [sizeV, serVal]
  | .dict d =>
    have := sizeD_le_length d
    show 1 + sizeD d ≤ (1 :: serDict d).length
    simp only [List.length_cons]
    omega

theorem sizeD_le_length (d : PDict) : sizeD d ≤ (serDict d).length := by
  match d with
  | .nil => simp [sizeD, serDict]
  | .cons k v rest =>
    have h1 := sizeV_le_length v
    have h2 := sizeD_le_length rest
    show 1 + sizeV v + sizeD rest ≤
      (9 :: (encString k ++ (serVal v ++ serDict rest))).length
    simp only [List.length_cons, List.length_append]
    omega

end

theorem parseRem_ser (v : PValue) : parseRem (serVal v) = some v := by
  have h := deVal_ser v [] (serVal v).length (sizeV_le_length v)
  simp only [List.append_nil] at h
  simp [parseRem, h]

theorem magic_ne_xmlHeader : magicBytes ≠ xmlHeaderBytes := by decide

theorem take8_dump_binary (v : PValue) :
    (dumpBytes .binary v).take 8 = magicBytes := by
  show ((magicBytes ++ serVal v).take 8) = magicBytes
  rw [List.take_left' (by rfl)]

theorem take8_dump_xml (v : PValue) :
    (dumpBytes .xml v).take 8 = xmlHeaderBytes := by
  show ((xmlHeaderBytes ++ serVal v).take 8) = xmlHeaderBytes
  rw [List.take_left' (by rfl)]

theorem loadBytes_dump (fmt : Fmt) (v : PValue) :
    loadBytes (dumpBytes fmt v) = some v := by
  cases fmt with
  | binary =>
    rw [loadBytes, if_pos (take8_dump_binary v)]
    have hdrop : (dumpBytes .binary v).drop 8 = serVal v := by
      show (magicBytes ++ serVal v).drop 8 = serVal v
      rw [List.drop_left' (by rfl)]
    rw [hdrop, parseRem_ser]
  | xml =>
    rw [loadBytes, if_neg, if_pos (take8_dump_xml v)]
    · have hdrop : (dumpBytes .xml v).drop 8 = serVal v := by
        show (xmlHeaderBytes ++ serVal v).drop 8 = serVal v
        rw [List.drop_left' (by rfl)]
      rw [hdrop, parseRem_ser]
    · rw [take8_dump_xml v]
      exact fun hh => magic_ne_xmlHeader hh.symm

/-! ### The program: `update_backup_version.py` -/

/-- Embeds `detect_plist_format`'s signature test: the file's first 8 bytes
(`f.read(8)`), checked with `header.startswith(b"bplist00")`; since the
signature itself is 8 bytes long, `startswith` on an at-most-8-byte header
is equality of `bs.take 8` with the signature. -/
def detectBytes (bs : List Nat) : Fmt :=
  if (bs.take 8).take magicBytes.length = magicBytes then .binary else .xml

/-- Embeds `detect_plist_format(path)`: return the format based on the file
signature; a missing file raises `FileNotFoundError` (re-raised). -/
def detect_plist_format (fs : FS) (path : String) : Except PError Fmt :=
  match fs path with
  | none => .error .notFound
  | some bs => .ok (detectBytes bs)

/-- Embeds `load_plist(path)`: open and parse; missing file raises
`FileNotFoundError`, malformed content a parse error. -/
def load_plist (fs : FS) (path : String) : Except PError PValue :=
  match fs path with
  | none => .error .notFound
  | some bs =>
    match loadBytes bs with
    | none => .error .parseError
    | some v => .ok v

/-- Name of the `tempfile.mkstemp(prefix=".plist.tmp_", dir=dname)` file.
`mkstemp` guarantees a fresh unique name in the target's directory; the
model makes it a deterministic name distinct from the target and from the
target's `.bak` sibling. -/
def tmpName (path : String) : String := path ++ ".plist.tmp_"

/-- Failure injection points inside `atomic_write_plist`, for the
atomicity/cleanup analysis: `plistlib.dump` raising, `os.chmod` raising an
error other than the caught `FileNotFoundError`, or `os.replace` raising. -/
inductive WFail : Type where
  | dump : WFail
  | chmod : WFail
  | replace : WFail
deriving DecidableEq

/-- Embeds `atomic_write_plist(path, data, fmt)` over the filesystem state,
with an optional injected failure. Steps: `mkstemp` creates the (empty)
temp file; `plistlib.dump` serializes into it; `os.chmod` best-effort
copies the original's mode (not modelled beyond its possible failure; a
`FileNotFoundError` there is caught and ignored); `os.replace` atomically
renames temp onto target. The `finally` block removes the temp file if it
still exists, which is exactly the failure paths, since a successful
replace consumed it. -/
def atomic_write_plist (fs : FS) (path : String) (data : PValue) (fmt : Fmt)
    (fail : Option WFail) : FS × Except PError Unit :=
  let tmp := tmpName path
  let fs1 := fsWrite fs tmp []
  match fail with
  | some .dump => (fsRemoveIfExists fs1 tmp, .error .ioError)
  | fail =>
    let fs2 := fsWrite fs1 tmp (dumpBytes fmt data)
    match fail with
    | some .chmod => (fsRemoveIfExists fs2 tmp, .error .ioError)
    | some .replace => (fsRemoveIfExists fs2 tmp, .error .ioError)
    | _ =>
      let fs3 := fsReplace fs2 tmp path
      (fsRemoveIfExists fs3 tmp, .ok ())

/-- Embeds `backup_file(path)`: copy `path` verbatim to `path + ".bak"`
unless the backup already exists. (`shutil.copy2` on a missing source would
raise; the caller only invokes this on a file it just loaded, so that arm
leaves the filesystem unchanged in the model.) -/
def backup_file (fs : FS) (path : String) : FS :=
  let bak := path ++ ".bak"
  if (fs bak).isSome then fs
  else
    match fs path with
    | some c => fsWrite fs bak c
    | none => fs

/-- Embeds `set_key_if_changed(plist_data, key, value)`: read the current
value, return `False` if it already equals the (string) target — Python
`==` between a string and any non-string plist value is `False` — else
assign and return `True`. Returns the updated dict and the flag. -/
def set_key_if_changed (plist_data : PDict) (key : String) (value : String) :
    PDict × Bool :=
  match plist_data.get key with
  | some (.str s) =>
    if s = value then (plist_data, false)
    else (plist_data.set key (.str value), true)
  | _ => (plist_data.set key (.str value), true)

/-- The two `set_key_if_changed` calls of `update_plist` (lines 109-110),
with `changed` accumulated by `|=`. -/
def applyTargets (prod_key build_key product_version build_version : String)
    (target : PDict) : PDict × Bool :=
  let r1 := set_key_if_changed target prod_key product_version
  let r2 := set_key_if_changed r1.1 build_key build_version
  (r2.1, r1.2 || r2.2)

/-- Embeds `ensure_path_dict(root, path_keys)` fused with the mutation the
caller performs through the returned alias. The Python function walks
`path_keys`, inserting an empty dict at each missing segment, raising
`ValueError` when a present segment is not a dict, and returns the inner
dict; the caller then mutates that dict in place, which this functional
rendering expresses by applying `f` at the resolved position and rebuilding
the root. Returns the new root and `f`'s flag. -/
def ensure_path_modify (f : PDict → PDict × Bool) :
    PDict → List String → Except PError (PDict × Bool)
  | node, [] => .ok (f node)
  | node, k :: ks =>
    match (match node.get k with
           | some v => v
           | none => PValue.dict .nil) with
    | .dict child =>
      match ensure_path_modify f child ks with
      | .ok (child', b) => .ok (node.set k (.dict child'), b)
      | .error e => .error e
    | _ => .error .invalidStructure

/-- Embeds `update_plist(path, product_version, build_version, make_backup,
key_path, key_names)`: detect format, load, resolve/create the key path,
conditionally set the two keys, and — only when something changed — take
the optional backup and write atomically. `key_path=None` is the empty
path; `prod_key`/`build_key` are the caller's `key_names` entries (the
Python defaults are `"Product Version"` / `"Build Version"`). A root value
that is not a dictionary makes the Python code raise (`TypeError` /
`AttributeError`) before touching the disk. -/
def update_plist (fs : FS) (path : String)
    (product_version build_version : String) (make_backup : Bool)
    (key_path : List String) (prod_key build_key : String) :
    FS × Except PError Bool :=
  match fs path with
  | none => (fs, .error .notFound)
  | some bs =>
    match loadBytes bs with
    | none => (fs, .error .parseError)
    | some (.dict root) =>
      match ensure_path_modify
          (applyTargets prod_key build_key product_version build_version)
          root key_path with
      | .error e => (fs, .error e)
      | .ok (root', changed) =>
        if changed then
          let fs1 := if make_backup then backup_file fs path else fs
          ((atomic_write_plist fs1 path (.dict root') (detectBytes bs)
              none).1, .ok true)
        else (fs, .ok false)
    | some _ => (fs, .error .typeError)

/-- Embeds the walk of the nested `read_versions(path, key_path,
allow_alias)` helper of `main`: `node = node.get(k, {}) if
isinstance(node, dict) else {}` for each segment — a pure read that never
inserts anything. -/
def read_walk : PValue → List String → PValue
  | node, [] => node
  | node, k :: ks =>
    read_walk
      (match node with
       | .dict d =>
         (match d.get k with
          | some v => v
          | none => PValue.dict .nil)
       | _ => PValue.dict .nil) ks

/-- Python `node.get(k)` with the alias fallback of `read_versions`. -/
def aliasGet (allow_alias : Bool) (d : PDict) (key aliasKey : String) :
    Option PValue :=
  match d.get key with
  | some v => some v
  | none => if allow_alias then d.get aliasKey else none

/-- Embeds `read_versions(path, key_path, allow_alias)`: load the plist,
walk the key path read-only, and return the `Product Version` /
`Build Version` entries (canonical names first, space-less aliases if
allowed), `none` for each absent one. The filesystem is threaded through
unchanged: the function only reads. -/
def read_versions (fs : FS) (path : String) (key_path : List String)
    (allow_alias : Bool) :
    FS × Except PError (Option PValue × Option PValue) :=
  match fs path with
  | none => (fs, .error .notFound)
  | some bs =>
    match loadBytes bs with
    | none => (fs, .error .parseError)
    | some data =>
      match read_walk data key_path with
      | .dict d =>
        (fs, .ok (aliasGet allow_alias d "Product Version" "ProductVersion",
                  aliasGet allow_alias d "Build Version" "BuildVersion"))
      | _ => (fs, .ok (none, none))

/-! ### Dictionary lemmas -/

theorem PDict.get_set_self (d : PDict) (k : String) (v : PValue) :
    (d.set k v).get k = some v := by
  match d with
  | .nil => simp [PDict.set, PDict.get]
  | .cons a b rest =>
    by_cases h : a = k
    · subst h; simp [PDict.set, PDict.get]
    · simp [PDict.set, PDict.get, h, PDict.get_set_self rest k v]

theorem PDict.get_set_ne (d : PDict) {k k' : String} (v : PValue)
    (h : k ≠ k') : (d.set k v).get k' = d.get k' := by
  match d with
  | .nil => simp [PDict.set, PDict.get, h]
  | .cons a b rest =>
    by_cases ha : a = k
    · subst ha; simp [PDict.set, PDict.get, h]
    · simp only [PDict.set, if_neg ha, PDict.get]
      by_cases hk' : a = k'
      · simp [hk']
      · simp [hk', PDict.get_set_ne rest v h]

theorem PDict.set_get_same (d : PDict) {k : String} {v : PValue}
    (h : d.get k = some v) : d.set k v = d := by
  match d with
  | .nil => simp [PDict.get] at h
  | .cons a b rest =>
    by_cases ha : a = k
    · subst ha
      have hb : b = v := by simpa [PDict.get] using h
      subst hb
      simp [PDict.set]
    · simp only [PDict.get, if_neg ha] at h
      simp [PDict.set, ha, PDict.set_get_same rest h]

/-! ### `set_key_if_changed` lemmas -/

theorem skic_get_self (d : PDict) (k v : String) :
    ((set_key_if_changed d k v).1).get k = some (.str v) := by
  cases hg : d.get k with
  | none => simp [set_key_if_changed, hg, PDict.get_set_self]
  | some val =>
    cases val with
    | str s =>
      by_cases hs : s = v
      · simp [set_key_if_changed, hg, hs]
      · simp [set_key_if_changed, hg, hs, PDict.get_set_self]
    | dict dd => simp [set_key_if_changed, hg, PDict.get_set_self]
    | other n => simp [set_key_if_changed, hg, PDict.get_set_self]

theorem skic_get_ne (d : PDict) {k k' : String} (v : String) (h : k ≠ k') :
    ((set_key_if_changed d k v).1).get k' = d.get k' := by
  cases hg : d.get k with
  | none => simp [set_key_if_changed, hg, PDict.get_set_ne _ _ h]
  | some val =>
    cases val with
    | str s =>
      by_cases hs : s = v
      · simp [set_key_if_changed, hg, hs]
      · simp [set_key_if_changed, hg, hs, PDict.get_set_ne _ _ h]
    | dict dd => simp [set_key_if_changed, hg, PDict.get_set_ne _ _ h]
    | other n => simp [set_key_if_changed, hg, PDict.get_set_ne _ _ h]

theorem skic_flag (d : PDict) (k v : String) :
    (set_key_if_changed d k v).2 = false ↔ d.get k = some (.str v) := by
  cases hg : d.get k with
  | none => simp [set_key_if_changed, hg]
  | some val =>
    cases val with
    | str s =>
      by_cases hs : s = v
      · simp [set_key_if_changed, hg, hs]
      · simp [set_key_if_changed, hg, hs]
    | dict dd => simp [set_key_if_changed, hg]
    | other n => simp [set_key_if_changed, hg]

theorem skic_nochange (d : PDict) {k v : String}
    (h : d.get k = some (.str v)) : set_key_if_changed d k v = (d, false) := by
  simp [set_key_if_changed, h]

/-! ### `applyTargets` lemmas -/

theorem applyTargets_get_pk {pk bk : String} (p b : String) (d : PDict)
    (hk : pk ≠ bk) :
    ((applyTargets pk bk p b d).1).get pk = some (.str p) := by
  show ((set_key_if_changed (set_key_if_changed d pk p).1 bk b).1).get pk =
    some (.str p)
  rw [skic_get_ne _ _ (Ne.symm hk), skic_get_self]

theorem applyTargets_get_bk (pk bk p b : String) (d : PDict) :
    ((applyTargets pk bk p b d).1).get bk = some (.str b) := by
  show ((set_key_if_changed (set_key_if_changed d pk p).1 bk b).1).get bk =
    some (.str b)
  rw [skic_get_self]

theorem applyTargets_nochange {pk bk p b : String} {d : PDict}
    (hp : d.get pk = some (.str p)) (hb : d.get bk = some (.str b)) :
    applyTargets pk bk p b d = (d, false) := by
  show ((set_key_if_changed (set_key_if_changed d pk p).1 bk b).1,
    (set_key_if_changed d pk p).2 ||
      (set_key_if_changed (set_key_if_changed d pk p).1 bk b).2) = (d, false)
  rw [skic_nochange d hp]
  show ((set_key_if_changed d bk b).1,
    false || (set_key_if_changed d bk b).2) = (d, false)
  rw [skic_nochange d hb]
  rfl

theorem applyTargets_flag {pk bk : String} (p b : String) (d : PDict) :
    (applyTargets pk bk p b d).2 = false ↔
      (d.get pk = some (.str p) ∧ d.get bk = some (.str b)) := by
  show ((set_key_if_changed d pk p).2 ||
      (set_key_if_changed (set_key_if_changed d pk p).1 bk b).2) = false ↔ _
  by_cases hp : d.get pk = some (.str p)
  · rw [skic_nochange d hp]
    show (false || (set_key_if_changed d bk b).2) = false ↔ _
    simp [skic_flag, hp]
  · have h1 : (set_key_if_changed d pk p).2 = true := by
      cases h2 : (set_key_if_changed d pk p).2 with
      | false => exact absurd ((skic_flag d pk p).mp h2) hp
      | true => rfl
    rw [h1]
    simp [hp]

/-! ### Pure key-path traversal and its relation to `ensure_path_modify` -/

/-- Read-only walk along a key path: succeeds only if every segment is
present and a dictionary. -/
def walkPath : PDict → List String → Option PDict
  | d, [] => some d
  | d, k :: ks =>
    match d.get k with
    | some (.dict cd) => walkPath cd ks
    | _ => none

/-- Whether key `k` holds exactly the string `v` (Python `curr == value`). -/
def keyMatches (d : PDict) (k v : String) : Bool :=
  match d.get k with
  | some (.str s) => s = v
  | _ => false

/-- Whether the resolved mapping already holds both target strings. -/
def matchesTargets (root : PDict) (kp : List String) (pk bk p b : String) :
    Bool :=
  match walkPath root kp with
  | some t => keyMatches t pk p && keyMatches t bk b
  | none => false

/-- Whether some key-path segment exists but is not a dictionary (after a
missing segment everything is freshly created, so only a present non-dict
can block). -/
def pathBlocked : PDict → List String → Bool
  | _, [] => false
  | d, k :: ks =>
    match d.get k with
    | some (.dict cd) => pathBlocked cd ks
    | some _ => true
    | none => false

theorem keyMatches_iff (d : PDict) (k v : String) :
    keyMatches d k v = true ↔ d.get k = some (.str v) := by
  cases hg : d.get k with
  | none => simp [keyMatches, hg]
  | some val =>
    cases val with
    | str s => simp [keyMatches, hg]
    | dict dd => simp [keyMatches, hg]
    | other n => simp [keyMatches, hg]

theorem ensure_fresh (pk bk p b : String) :
    ∀ ks : List String, ∃ d,
      ensure_path_modify (applyTargets pk bk p b) PDict.nil ks =
        .ok (d, true) := by
  intro ks
  induction ks with
  | nil =>
    refine ⟨(applyTargets pk bk p b PDict.nil).1, ?_⟩
    have hflag : (applyTargets pk bk p b PDict.nil).2 = true := by
      cases hc : (applyTargets pk bk p b PDict.nil).2 with
      | false =>
        have := (applyTargets_flag p b PDict.nil).mp hc
        simp [PDict.get] at this
      | true => rfl
    simp [ensure_path_modify, ← hflag]
  | cons k ks ih =>
    obtain ⟨d, hd⟩ := ih
    exact ⟨PDict.nil.set k (.dict d), by simp [ensure_path_modify, PDict.get, hd]⟩

theorem ensure_post {pk bk : String} (p b : String) (hk : pk ≠ bk) :
    ∀ (kp : List String) (root root' : PDict) (c : Bool),
      ensure_path_modify (applyTargets pk bk p b) root kp = .ok (root', c) →
      ∃ t, walkPath root' kp = some t ∧ t.get pk = some (.str p) ∧
        t.get bk = some (.str b) := by
  intro kp
  induction kp with
  | nil =>
    intro root root' c h
    have h' : applyTargets pk bk p b root = (root', c) := by
      simpa [ensure_path_modify] using h
    have h1 : (applyTargets pk bk p b root).1 = root' := by rw [h']
    refine ⟨root', by simp [walkPath], ?_, ?_⟩
    · rw [← h1]; exact applyTargets_get_pk p b root hk
    · rw [← h1]; exact applyTargets_get_bk pk bk p b root
  | cons k ks ih =>
    intro root root' c h
    cases hg : root.get k with
    | none =>
      simp only [ensure_path_modify, hg] at h
      cases hrec : ensure_path_modify (applyTargets pk bk p b) PDict.nil ks
        with
      | error e => rw [hrec] at h; exact absurd h (by simp)
      | ok pr =>
        rw [hrec] at h
        obtain ⟨cd', b2⟩ := pr
        simp only [Except.ok.injEq, Prod.mk.injEq] at h
        obtain ⟨hroot', hc⟩ := h
        obtain ⟨t, hw, hp, hb⟩ := ih PDict.nil cd' b2 hrec
        refine ⟨t, ?_, hp, hb⟩
        rw [← hroot']
        simp [walkPath, PDict.get_set_self, hw]
    | some val =>
      cases val with
      | dict cd =>
        simp only [ensure_path_modify, hg] at h
        cases hrec : ensure_path_modify (applyTargets pk bk p b) cd ks with
        | error e => rw [hrec] at h; exact absurd h (by simp)
        | ok pr =>
          rw [hrec] at h
          obtain ⟨cd', b2⟩ := pr
          simp only [Except.ok.injEq, Prod.mk.injEq] at h
          obtain ⟨hroot', hc⟩ := h
          obtain ⟨t, hw, hp, hb⟩ := ih cd cd' b2 hrec
          refine ⟨t, ?_, hp, hb⟩
          rw [← hroot']
          simp [walkPath, PDict.get_set_self, hw]
      | str s => simp [ensure_path_modify, hg] at h
      | other n => simp [ensure_path_modify, hg] at h

theorem ensure_stable {pk bk : String} (p b : String) :
    ∀ (kp : List String) (root t : PDict),
      walkPath root kp = some t → t.get pk = some (.str p) →
      t.get bk = some (.str b) →
      ensure_path_modify (applyTargets pk bk p b) root kp =
        .ok (root, false) := by
  intro kp
  induction kp with
  | nil =>
    intro root t hw hp hb
    have ht : t = root := by simpa [walkPath] using hw.symm
    subst ht
    simp [ensure_path_modify, applyTargets_nochange hp hb]
  | cons k ks ih =>
    intro root t hw hp hb
    cases hg : root.get k with
    | none => simp [walkPath, hg] at hw
    | some val =>
      cases val with
      | dict cd =>
        simp only [walkPath, hg] at hw
        have hrec := ih cd t hw hp hb
        simp [ensure_path_modify, hg, hrec, PDict.set_get_same root hg]
      | str s => simp [walkPath, hg] at hw
      | other n => simp [walkPath, hg] at hw

theorem ensure_flag {pk bk : String} (p b : String) :
    ∀ (kp : List String) (root root' : PDict) (c : Bool),
      ensure_path_modify (applyTargets pk bk p b) root kp = .ok (root', c) →
      (c = false ↔ matchesTargets root kp pk bk p b = true) := by
  intro kp
  induction kp with
  | nil =>
    intro root root' c h
    have h' : applyTargets pk bk p b root = (root', c) := by
      simpa [ensure_path_modify] using h
    have hc : (applyTargets pk bk p b root).2 = c := by rw [h']
    rw [← hc, applyTargets_flag]
    simp [matchesTargets, walkPath, keyMatches_iff]
  | cons k ks ih =>
    intro root root' c h
    cases hg : root.get k with
    | none =>
      simp only [ensure_path_modify, hg] at h
      obtain ⟨d, hd⟩ := ensure_fresh pk bk p b ks
      rw [hd] at h
      simp only [Except.ok.injEq, Prod.mk.injEq] at h
      obtain ⟨_, hc⟩ := h
      rw [← hc]
      simp [matchesTargets, walkPath, hg]
    | some val =>
      cases val with
      | dict cd =>
        simp only [ensure_path_modify, hg] at h
        cases hrec : ensure_path_modify (applyTargets pk bk p b) cd ks with
        | error e => rw [hrec] at h; exact absurd h (by simp)
        | ok pr =>
          rw [hrec] at h
          obtain ⟨cd', b2⟩ := pr
          simp only [Except.ok.injEq, Prod.mk.injEq] at h
          obtain ⟨_, hc⟩ := h
          rw [← hc]
          rw [ih cd cd' b2 hrec]
          simp [matchesTargets, walkPath, hg]
      | str s => simp [ensure_path_modify, hg] at h
      | other n => simp [ensure_path_modify, hg] at h

theorem ensure_blocked (f : PDict → PDict × Bool) :
    ∀ (kp : List String) (root : PDict), pathBlocked root kp = true →
      ensure_path_modify f root kp = .error .invalidStructure := by
  intro kp
  induction kp with
  | nil => intro root hb; simp [pathBlocked] at hb
  | cons k ks ih =>
    intro root hb
    cases hg : root.get k with
    | none => simp [pathBlocked, hg] at hb
    | some val =>
      cases val with
      | dict cd =>
        simp only [pathBlocked, hg] at hb
        simp [ensure_path_modify, hg, ih cd hb]
      | str s => simp [ensure_path_modify, hg]
      | other n => simp [ensure_path_modify, hg]

/-! ### Filesystem-level lemmas about the writer and backup -/

theorem tmpName_ne (p : String) : tmpName p ≠ p := by
  intro h
  have hlen := congrArg String.length h
  rw [tmpName, String.length_append] at hlen
  have h11 : (".plist.tmp_" : String).length = 11 := rfl
  omega

theorem tmpName_ne_bak (p : String) : tmpName p ≠ p ++ ".bak" := by
  intro h
  have hlen := congrArg String.length h
  rw [tmpName, String.length_append, String.length_append] at hlen
  have h11 : (".plist.tmp_" : String).length = 11 := rfl
  have h4 : (".bak" : String).length = 4 := rfl
  omega

theorem bak_ne_path (p : String) : p ++ ".bak" ≠ p := by
  intro h
  have hlen := congrArg String.length h
  rw [String.length_append] at hlen
  have h4 : (".bak" : String).length = 4 := rfl
  omega

theorem aw_none_fst (fs : FS) (path : String) (data : PValue) (fmt : Fmt)
    (q : String) :
    (atomic_write_plist fs path data fmt none).1 q =
      if q = path then some (dumpBytes fmt data)
      else if q = tmpName path then none else fs q := by
  have htmp : ¬ (tmpName path = path) := tmpName_ne path
  show fsRemoveIfExists
      (fsReplace
        (fsWrite (fsWrite fs (tmpName path) []) (tmpName path)
          (dumpBytes fmt data))
        (tmpName path) path)
      (tmpName path) q = _
  have h3 : fsReplace
      (fsWrite (fsWrite fs (tmpName path) []) (tmpName path)
        (dumpBytes fmt data))
      (tmpName path) path (tmpName path) = none := by
    simp [fsReplace, htmp]
  rw [fsRemoveIfExists, h3]
  simp only [Option.isSome_none, Bool.false_eq_true, if_false]
  by_cases hq : q = path
  · simp [fsReplace, fsWrite, hq, htmp]
  · by_cases hq2 : q = tmpName path
    · simp [fsReplace, fsWrite, hq, hq2]
    · simp [fsReplace, fsWrite, hq, hq2]

theorem aw_none_snd (fs : FS) (path : String) (data : PValue) (fmt : Fmt) :
    (atomic_write_plist fs path data fmt none).2 = .ok () := rfl

theorem aw_fail_fst (fs : FS) (path : String) (data : PValue) (fmt : Fmt)
    (w : WFail) (q : String) :
    (atomic_write_plist fs path data fmt (some w)).1 q =
      if q = tmpName path then none else fs q := by
  cases w with
  | dump =>
    show fsRemoveIfExists (fsWrite fs (tmpName path) []) (tmpName path) q = _
    have h1 : (fsWrite fs (tmpName path) []) (tmpName path) = some [] := by
      simp [fsWrite]
    rw [fsRemoveIfExists, h1]
    by_cases hq : q = tmpName path
    · simp [fsRemove, hq]
    · simp [fsRemove, fsWrite, hq]
  | chmod =>
    show fsRemoveIfExists
        (fsWrite (fsWrite fs (tmpName path) []) (tmpName path)
          (dumpBytes fmt data)) (tmpName path) q = _
    have h1 : (fsWrite (fsWrite fs (tmpName path) []) (tmpName path)
        (dumpBytes fmt data)) (tmpName path) = some (dumpBytes fmt data) := by
      simp [fsWrite]
    rw [fsRemoveIfExists, h1]
    by_cases hq : q = tmpName path
    · simp [fsRemove, hq]
    · simp [fsRemove, fsWrite, hq]
  | replace =>
    show fsRemoveIfExists
        (fsWrite (fsWrite fs (tmpName path) []) (tmpName path)
          (dumpBytes fmt data)) (tmpName path) q = _
    have h1 : (fsWrite (fsWrite fs (tmpName path) []) (tmpName path)
        (dumpBytes fmt data)) (tmpName path) = some (dumpBytes fmt data) := by
      simp [fsWrite]
    rw [fsRemoveIfExists, h1]
    by_cases hq : q = tmpName path
    · simp [fsRemove, hq]
    · simp [fsRemove, fsWrite, hq]

theorem aw_fail_snd (fs : FS) (path : String) (data : PValue) (fmt : Fmt)
    (w : WFail) :
    (atomic_write_plist fs path data fmt (some w)).2 = .error .ioError := by
  cases w <;> rfl

theorem backup_file_exists {fs : FS} {p : String} {b : List Nat}
    (h : fs (p ++ ".bak") = some b) : backup_file fs p = fs := by
  simp [backup_file, h]

theorem backup_file_apply_ne (fs : FS) (p : String) {q : String}
    (h : q ≠ p ++ ".bak") : backup_file fs p q = fs q := by
  rw [backup_file]
  by_cases hb : (fs (p ++ ".bak")).isSome
  · simp [hb]
  · simp only [hb, if_false]
    cases hp : fs p with
    | none => rfl
    | some c => simp [fsWrite, h]

theorem backup_file_new {fs : FS} {p : String} {c : List Nat}
    (hb : fs (p ++ ".bak") = none) (hp : fs p = some c) :
    backup_file fs p = fsWrite fs (p ++ ".bak") c := by
  simp [backup_file, hb, hp]

/-! ### Success-shape of `update_plist` -/

theorem update_plist_ok {fs : FS} {path pv bv : String} {mb : Bool}
    {kp : List String} {pk bk : String} {fs' : FS} {c : Bool}
    (h : update_plist fs path pv bv mb kp pk bk = (fs', .ok c)) :
    ∃ bs root root', fs path = some bs ∧ loadBytes bs = some (.dict root) ∧
      ensure_path_modify (applyTargets pk bk pv bv) root kp =
        .ok (root', c) ∧
      ((c = false ∧ fs' = fs) ∨
       (c = true ∧ fs' = (atomic_write_plist
          (if mb then backup_file fs path else fs) path (.dict root')
          (detectBytes bs) none).1)) := by
  cases hfs : fs path with
  | none => simp [update_plist, hfs] at h
  | some bs =>
    cases hload : loadBytes bs with
    | none => simp [update_plist, hfs, hload] at h
    | some v =>
      cases v with
      | str s => simp [update_plist, hfs, hload] at h
      | other n => simp [update_plist, hfs, hload] at h
      | dict root =>
        cases hens : ensure_path_modify (applyTargets pk bk pv bv) root kp
          with
        | error e => simp [update_plist, hfs, hload, hens] at h
        | ok pr =>
          obtain ⟨root', ch⟩ := pr
          refine ⟨bs, root, root', rfl, hload, ?_⟩
          cases ch with
          | false =>
            simp only [update_plist, hfs, hload, hens, if_false,
              Bool.false_eq_true, Prod.mk.injEq, Except.ok.injEq] at h
            obtain ⟨h1, h2⟩ := h
            rw [← h2]
            exact ⟨hens, Or.inl ⟨rfl, h1.symm⟩⟩
          | true =>
            simp only [update_plist, hfs, hload, hens, if_true,
              Prod.mk.injEq, Except.ok.injEq] at h
            obtain ⟨h1, h2⟩ := h
            rw [← h2]
            exact ⟨hens, Or.inr ⟨rfl, h1.symm⟩⟩

/-! ### Sample data for concrete instantiations -/

/-- A two-key root document. -/
def sampleRoot : PDict := .cons "P" (.str "1") (.cons "B" (.str "2") .nil)

/-- A one-file filesystem holding the sample document as an XML plist. -/
def fsSample : FS :=
  fun p => if p = "f" then some (dumpBytes .xml (.dict sampleRoot)) else none

theorem detectBytes_dump (fmt : Fmt) (data : PValue) :
    detectBytes (dumpBytes fmt data) = fmt := by
  cases fmt with
  | binary =>
    have h : ((dumpBytes .binary data).take 8).take magicBytes.length =
        magicBytes := by
      rw [take8_dump_binary]; rfl
    simp [detectBytes, h]
  | xml =>
    have h : ((dumpBytes .xml data).take 8).take magicBytes.length =
        xmlHeaderBytes := by
      rw [take8_dump_xml]; rfl
    simp [detectBytes, h, magic_ne_xmlHeader]
    intro hcontra
    exact absurd hcontra.symm magic_ne_xmlHeader

/-- Claim C7: for an existing file, `detect_plist_format` classifies Binary iff
the file's leading bytes are exactly the 8-byte `bplist00` signature, and
Text (XML) otherwise; for a missing path it fails with NotFound. -/
theorem detect_format_spec (fs : FS) (path : String) :
    (fs path = none → detect_plist_format fs path = .error .notFound) ∧
    (∀ bs, fs path = some bs →
      ((detect_plist_format fs path = .ok .binary ↔ bs.take 8 = magicBytes) ∧
       (detect_plist_format fs path = .ok .xml ↔ bs.take 8 ≠ magicBytes))) := by
  constructor
  · intro h; simp [detect_plist_format, h]
  · intro bs h
    have htt : (bs.take 8).take magicBytes.length = bs.take 8 := by
      rw [show magicBytes.length = 8 from rfl, List.take_take]
      norm_num
    have hdet : detect_plist_format fs path = .ok (detectBytes bs) := by
      simp [detect_plist_format, h]
    rw [hdet, detectBytes, htt]
    by_cases hb : bs.take 8 = magicBytes
    · simp [hb]
    · simp [hb]

/-- Witness for C7 at a concrete binary file, a concrete text file and a
missing file. -/
theorem detect_format_spec_witness :
    detect_plist_format fsSample "f" = .ok .xml ∧
    detect_plist_format fsSample "g" = .error .notFound := by
  constructor
  · exact (((detect_format_spec fsSample "f").2 _ rfl).2).mpr (by decide)
  · exact (detect_format_spec fsSample "g").1 rfl

/-- Claim C10: an existing file shorter than 8 bytes (including the empty file)
is classified Text, since it cannot start with the full 8-byte signature. -/
theorem detect_short_xml {fs : FS} {path : String} {bs : List Nat}
    (h : fs path = some bs) (hlen : bs.length < 8) :
    detect_plist_format fs path = .ok .xml := by
  have hne : ¬ ((bs.take 8).take magicBytes.length = magicBytes) := by
    intro hEq
    have h1 : ((bs.take 8).take magicBytes.length).length = 8 := by
      rw [hEq]; rfl
    rw [List.length_take, List.length_take] at h1
    omega
  simp [detect_plist_format, h, detectBytes, hne]

/-- Witness for C10: the empty file is classified Text. -/
theorem detect_short_xml_witness :
    (fun p => if p = "e" then some ([] : List Nat) else none : FS) "e" =
      some [] ∧
    detect_plist_format
      (fun p => if p = "e" then some ([] : List Nat) else none) "e" =
      .ok .xml := by
  refine ⟨rfl, ?_⟩
  exact @detect_short_xml (fun p => if p = "e" then some [] else none) "e" []
    rfl (by decide)

/-- Claim C2: a document detected in some format and handed to the Atomic Writer
with that format tag is re-classified by the Format Detector as the same
format after the write — Binary stays Binary, Text stays Text. -/
theorem format_fidelity {fs : FS} {path : String} {fmt : Fmt}
    (h : detect_plist_format fs path = .ok fmt) (data : PValue) :
    detect_plist_format ((atomic_write_plist fs path data fmt none).1) path =
      .ok fmt := by
  have hat : (atomic_write_plist fs path data fmt none).1 path =
      some (dumpBytes fmt data) := by
    rw [aw_none_fst]; simp
  simp [detect_plist_format, hat, detectBytes_dump]

/-- Witness for C2 at the sample XML file. -/
theorem format_fidelity_witness :
    detect_plist_format
      ((atomic_write_plist fsSample "f" (.str "x") .xml none).1) "f" =
      .ok .xml := by
  exact format_fidelity
    (show detect_plist_format fsSample "f" = .ok .xml from rfl) (.str "x")

/-- Claim C3: in the atomic writer, any failure after the temporary file's
creation and before a successful replace (serialization, or a
permission-copy failure other than the caught missing-original case, or
the replace itself) removes the temporary file and leaves every other
file — the target in particular — untouched; on success no temporary file
remains and the target holds the serialized document. -/
theorem atomic_write_cleanup (fs : FS) (path : String) (data : PValue)
    (fmt : Fmt) (fail : Option WFail) :
    (fail = none →
      (atomic_write_plist fs path data fmt fail).2 = .ok () ∧
      (atomic_write_plist fs path data fmt fail).1 (tmpName path) = none ∧
      (atomic_write_plist fs path data fmt fail).1 path =
        some (dumpBytes fmt data)) ∧
    (∀ w, fail = some w →
      (atomic_write_plist fs path data fmt fail).2 = .error .ioError ∧
      (atomic_write_plist fs path data fmt fail).1 (tmpName path) = none ∧
      ∀ q, q ≠ tmpName path →
        (atomic_write_plist fs path data fmt fail).1 q = fs q) := by
  constructor
  · intro hf
    subst hf
    refine ⟨aw_none_snd fs path data fmt, ?_, ?_⟩
    · rw [aw_none_fst]
      simp [Ne.symm (tmpName_ne path), tmpName_ne path]
    · rw [aw_none_fst]; simp
  · intro w hf
    subst hf
    refine ⟨aw_fail_snd fs path data fmt w, ?_, ?_⟩
    · rw [aw_fail_fst]; simp
    · intro q hq
      rw [aw_fail_fst]
      simp [hq]

/-- Witness for C3: a replace failure on the sample filesystem cleans the
temporary file and preserves the target; the no-failure run succeeds. -/
theorem atomic_write_cleanup_witness :
    ((atomic_write_plist fsSample "f" (.str "x") .xml
        (some .replace)).2 = .error .ioError ∧
      (atomic_write_plist fsSample "f" (.str "x") .xml
        (some .replace)).1 (tmpName "f") = none ∧
      (atomic_write_plist fsSample "f" (.str "x") .xml
        (some .replace)).1 "f" = fsSample "f") ∧
    (atomic_write_plist fsSample "f" (.str "x") .xml none).2 = .ok () := by
  constructor
  · obtain ⟨ha, hb, hc⟩ :=
      (atomic_write_cleanup fsSample "f" (.str "x") .xml
        (some .replace)).2 .replace rfl
    exact ⟨ha, hb, hc "f" (Ne.symm (tmpName_ne "f"))⟩
  · exact ((atomic_write_cleanup fsSample "f" (.str "x") .xml none).1 rfl).1

/-- Claim C5: at the resolved mapping, the changed flag is true iff at least one
of the two leaf values differs from its target (an absent or non-string
value counts as different); both entries hold the target values
afterwards; and a leaf already equal to its target is left untouched by
its `set_key_if_changed` call. -/
theorem changed_flag_spec {pk bk : String} (p b : String) (d : PDict)
    (hk : pk ≠ bk) :
    ((applyTargets pk bk p b d).2 = true ↔
      ¬(d.get pk = some (.str p) ∧ d.get bk = some (.str b))) ∧
    ((applyTargets pk bk p b d).1).get pk = some (.str p) ∧
    ((applyTargets pk bk p b d).1).get bk = some (.str b) ∧
    (d.get pk = some (.str p) → set_key_if_changed d pk p = (d, false)) := by
  refine ⟨?_, applyTargets_get_pk p b d hk, applyTargets_get_bk pk bk p b d,
    fun hp => skic_nochange d hp⟩
  have hflag := @applyTargets_flag pk bk p b d
  cases hc : (applyTargets pk bk p b d).2 with
  | false => simp [hflag.mp hc]
  | true =>
    simp only [true_iff]
    intro hcontra
    have := applyTargets_nochange hcontra.1 hcontra.2
    rw [this] at hc
    exact absurd hc (by simp)

/-- Witness for C5: partial mutation — the product value already matches,
only the build value differs, so changed is true and the product entry is
untouched. -/
theorem changed_flag_spec_witness :
    (((applyTargets "P" "B" "1" "9" sampleRoot).2 = true ↔
      ¬(sampleRoot.get "P" = some (.str "1") ∧
        sampleRoot.get "B" = some (.str "9"))) ∧
    ((applyTargets "P" "B" "1" "9" sampleRoot).1).get "P" =
      some (.str "1") ∧
    ((applyTargets "P" "B" "1" "9" sampleRoot).1).get "B" =
      some (.str "9") ∧
    (sampleRoot.get "P" = some (.str "1") →
      set_key_if_changed sampleRoot "P" "1" = (sampleRoot, false))) ∧
    (applyTargets "P" "B" "1" "9" sampleRoot).2 = true := by
  refine ⟨changed_flag_spec "1" "9" sampleRoot (by decide), rfl⟩

/-- Every run of `update_plist` either leaves the filesystem unchanged
(all error paths and the no-change path) or performed the
backup-then-atomic-write sequence of the changed path. -/
theorem update_fst_cases (fs : FS) (path pv bv : String) (mb : Bool)
    (kp : List String) (pk bk : String) :
    (update_plist fs path pv bv mb kp pk bk).1 = fs ∨
    ∃ bs root root', fs path = some bs ∧ loadBytes bs = some (.dict root) ∧
      ensure_path_modify (applyTargets pk bk pv bv) root kp =
        .ok (root', true) ∧
      (update_plist fs path pv bv mb kp pk bk).1 =
        (atomic_write_plist (if mb then backup_file fs path else fs) path
          (.dict root') (detectBytes bs) none).1 := by
  cases hfs : fs path with
  | none => left; simp [update_plist, hfs]
  | some bs =>
    cases hload : loadBytes bs with
    | none => left; simp [update_plist, hfs, hload]
    | some v =>
      cases v with
      | str s => left; simp [update_plist, hfs, hload]
      | other n => left; simp [update_plist, hfs, hload]
      | dict root =>
        cases hens : ensure_path_modify (applyTargets pk bk pv bv) root kp
          with
        | error e => left; simp [update_plist, hfs, hload, hens]
        | ok pr =>
          obtain ⟨root', ch⟩ := pr
          cases ch with
          | false => left; simp [update_plist, hfs, hload, hens]
          | true =>
            right
            exact ⟨bs, root, root', rfl, hload, hens, by
              simp [update_plist, hfs, hload, hens]⟩

/-- Claim C4: if some key-path segment exists but holds a non-mapping value, the
update fails with InvalidStructure and the filesystem — the target file in
particular — is byte-for-byte unchanged: no write and no backup happen. -/
theorem update_invalid_structure {fs : FS} {path : String} {bs : List Nat}
    {root : PDict} (pv bv : String) (mb : Bool) {kp : List String}
    (pk bk : String) (h1 : fs path = some bs)
    (h2 : loadBytes bs = some (.dict root))
    (h3 : pathBlocked root kp = true) :
    update_plist fs path pv bv mb kp pk bk =
      (fs, .error .invalidStructure) := by
  simp [update_plist, h1, h2,
    ensure_blocked (applyTargets pk bk pv bv) kp root h3]

/-- A document whose `L` entry is a text value, not a dictionary. -/
def blockedRoot : PDict := .cons "L" (.str "x") .nil

/-- A one-file filesystem holding `blockedRoot` as a binary plist. -/
def fsBlocked : FS :=
  fun p => if p = "m" then some (dumpBytes .binary (.dict blockedRoot))
    else none

/-- Witness for C4 at a concrete blocked key path. -/
theorem update_invalid_structure_witness :
    pathBlocked blockedRoot ["L"] = true ∧
    update_plist fsBlocked "m" "9" "8" true ["L"] "P" "B" =
      (fsBlocked, .error .invalidStructure) := by
  refine ⟨rfl, ?_⟩
  exact @update_invalid_structure fsBlocked "m"
    (dumpBytes .binary (.dict blockedRoot)) blockedRoot "9" "8" true ["L"]
    "P" "B" rfl rfl rfl

/-- Claim C6: the editing stage computes the changed flag purely in memory
(`ensure_path_modify` over the loaded document); `update_plist` returns
that flag, and the Atomic Writer (with the optional backup first) runs
exactly when the flag is true — on the no-change path the filesystem is
returned untouched. -/
theorem update_write_gating {fs : FS} {path : String} {bs : List Nat}
    {root root' : PDict} {c : Bool} (pv bv : String) (mb : Bool)
    (kp : List String) (pk bk : String) (h1 : fs path = some bs)
    (h2 : loadBytes bs = some (.dict root))
    (h3 : ensure_path_modify (applyTargets pk bk pv bv) root kp =
      .ok (root', c)) :
    update_plist fs path pv bv mb kp pk bk =
      (if c then (atomic_write_plist (if mb then backup_file fs path else fs)
          path (.dict root') (detectBytes bs) none).1
       else fs, .ok c) := by
  cases c <;> simp [update_plist, h1, h2, h3]

/-- Witness for C6: when both values already match, no write happens and
the flag is false. -/
theorem update_write_gating_witness :
    update_plist fsSample "f" "1" "2" false [] "P" "B" =
      (fsSample, .ok false) := by
  simpa using @update_write_gating fsSample "f"
    (dumpBytes .xml (.dict sampleRoot)) sampleRoot sampleRoot false
    "1" "2" false [] "P" "B" rfl rfl rfl

/-- Claim C8: with backups enabled, a pre-existing `<path>.bak` survives any
update byte-for-byte; and when no backup exists and the update changes the
file, `<path>.bak` afterwards holds exactly the pre-update bytes of the
target file. -/
theorem backup_non_clobbering (fs : FS) (path pv bv : String)
    (kp : List String) (pk bk : String) :
    (∀ b0, fs (path ++ ".bak") = some b0 →
      (update_plist fs path pv bv true kp pk bk).1 (path ++ ".bak") =
        some b0) ∧
    (fs (path ++ ".bak") = none →
      (update_plist fs path pv bv true kp pk bk).2 = .ok true →
      (update_plist fs path pv bv true kp pk bk).1 (path ++ ".bak") =
        fs path) := by
  constructor
  · intro b0 hb
    rcases update_fst_cases fs path pv bv true kp pk bk with h |
      ⟨bs, root, root', hfs, hload, hens, hfst⟩
    · rw [h]; exact hb
    · rw [hfst, aw_none_fst, if_neg (bak_ne_path path),
        if_neg (fun hh => tmpName_ne_bak path hh.symm)]
      simp only [if_true]
      rw [backup_file_exists hb]
      exact hb
  · intro hb h2
    have h' : update_plist fs path pv bv true kp pk bk =
        ((update_plist fs path pv bv true kp pk bk).1, .ok true) := by
      rw [← h2]
    obtain ⟨bs, root, root', hfs, hload, hens, hbr⟩ := update_plist_ok h'
    rcases hbr with ⟨hc, _⟩ | ⟨_, hfst⟩
    · exact absurd hc (by simp)
    · rw [hfst, aw_none_fst, if_neg (bak_ne_path path),
        if_neg (fun hh => tmpName_ne_bak path hh.symm)]
      simp only [if_true]
      rw [backup_file_new hb hfs]
      simp [fsWrite, hfs]

/-- A filesystem with the sample document and a pre-existing backup. -/
def fsWithBak : FS :=
  fun p => if p = "f" then some (dumpBytes .xml (.dict sampleRoot))
    else if p = "f.bak" then some [7] else none

/-- Witness for C8: a pre-existing backup survives a changing update, and
a fresh backup holds the pre-update bytes. -/
theorem backup_non_clobbering_witness :
    (update_plist fsWithBak "f" "9" "8" true [] "P" "B").1 ("f" ++ ".bak") =
      some [7] ∧
    (update_plist fsSample "f" "9" "8" true [] "P" "B").1 ("f" ++ ".bak") =
      fsSample "f" := by
  constructor
  · exact (backup_non_clobbering fsWithBak "f" "9" "8" [] "P" "B").1 [7] rfl
  · exact (backup_non_clobbering fsSample "f" "9" "8" [] "P" "B").2 rfl rfl

/-- Claim C9: the read path is pure — the filesystem comes back unchanged (so
the read-only traversal creates no missing intermediate mappings anywhere
it could be observed) — and when the walk resolves to a mapping it returns
exactly that mapping's two leaf entries, a present leaf as its value and
an absent leaf (canonical name, and alias when allowed) as `none`. -/
theorem read_versions_pure (fs : FS) (path : String) (kp : List String)
    (a : Bool) :
    (read_versions fs path kp a).1 = fs ∧
    (∀ bs data d, fs path = some bs → loadBytes bs = some data →
      read_walk data kp = .dict d →
      (read_versions fs path kp a).2 =
        .ok (aliasGet a d "Product Version" "ProductVersion",
             aliasGet a d "Build Version" "BuildVersion")) ∧
    (∀ d k k2 v, PDict.get d k = some v → aliasGet a d k k2 = some v) ∧
    (∀ d k k2, PDict.get d k = none → PDict.get d k2 = none →
      aliasGet a d k k2 = none) := by
  refine ⟨?_, ?_, ?_, ?_⟩
  · cases hfs : fs path with
    | none => simp [read_versions, hfs]
    | some bs =>
      cases hload : loadBytes bs with
      | none => simp [read_versions, hfs, hload]
      | some data =>
        cases hw : read_walk data kp with
        | dict d => simp [read_versions, hfs, hload, hw]
        | str s => simp [read_versions, hfs, hload, hw]
        | other n => simp [read_versions, hfs, hload, hw]
  · intro bs data d hfs hload hw
    simp [read_versions, hfs, hload, hw]
  · intro d k k2 v hv
    simp [aliasGet, hv]
  · intro d k k2 h1 h2
    cases a <;> simp [aliasGet, h1, h2]

/-- Witness for C9 at the sample file. -/
theorem read_versions_pure_witness :
    (read_versions fsSample "f" [] true).1 = fsSample ∧
    (read_versions fsSample "f" [] true).2 =
      .ok (aliasGet true sampleRoot "Product Version" "ProductVersion",
           aliasGet true sampleRoot "Build Version" "BuildVersion") := by
  refine ⟨(read_versions_pure fsSample "f" [] true).1, ?_⟩
  exact (read_versions_pure fsSample "f" [] true).2.1
    (dumpBytes .xml (.dict sampleRoot)) (.dict sampleRoot) sampleRoot
    rfl rfl rfl

/-- Claim C1: an update that succeeds is idempotent — running the same update
again returns changed = false and leaves every file exactly as the first
run left it (so no second write and no second backup happen) — and the
first run's changed flag is true exactly when some leaf value initially
differed from its target (with created/missing path segments counting as
differing). -/
theorem update_idempotent {fs : FS} {path pv bv : String} {mb : Bool}
    {kp : List String} {pk bk : String} {fs₁ : FS} {c : Bool}
    (hk : pk ≠ bk)
    (h : update_plist fs path pv bv mb kp pk bk = (fs₁, .ok c)) :
    update_plist fs₁ path pv bv mb kp pk bk = (fs₁, .ok false) ∧
    (∀ bs0 root0, fs path = some bs0 → loadBytes bs0 = some (.dict root0) →
      (c = true ↔ matchesTargets root0 kp pk bk pv bv = false)) := by
  obtain ⟨bs, root, root', hfs, hload, hens, hbr⟩ := update_plist_ok h
  constructor
  · rcases hbr with ⟨hc, hfs1⟩ | ⟨hc, hfs1⟩
    · subst hc
      rw [hfs1]
      rw [hfs1] at h
      exact h
    · subst hc
      have hpath1 : fs₁ path =
          some (dumpBytes (detectBytes bs) (.dict root')) := by
        rw [hfs1, aw_none_fst]
        simp
      have hload1 : loadBytes (dumpBytes (detectBytes bs) (.dict root')) =
          some (.dict root') := loadBytes_dump _ _
      obtain ⟨t, hw, hp, hb⟩ := ensure_post pv bv hk kp root root' true hens
      have hstable := ensure_stable pv bv kp root' t hw hp hb
      simp [update_plist, hpath1, hload1, hstable]
  · intro bs0 root0 hfs0 hload0
    have hbs : bs0 = bs := by
      have := hfs.symm.trans hfs0
      exact (Option.some.injEq .. ▸ this).symm
    subst hbs
    have hroot : root0 = root := by
      have := hload.symm.trans hload0
      simp only [Option.some.injEq, PValue.dict.injEq] at this
      exact this.symm
    subst hroot
    have hflag := ensure_flag pv bv kp root0 root' c hens
    cases c with
    | false =>
      cases hm : matchesTargets root0 kp pk bk pv bv with
      | false => simp_all
      | true => simp_all
    | true =>
      cases hm : matchesTargets root0 kp pk bk pv bv with
      | false => simp_all
      | true => simp_all

/-- Witness for C1: updating the sample file twice with the same targets,
the second run reports no change and returns the filesystem of the first
run unchanged. -/
theorem update_idempotent_witness :
    ("P" : String) ≠ "B" ∧
    update_plist (update_plist fsSample "f" "9" "8" false [] "P" "B").1
        "f" "9" "8" false [] "P" "B" =
      ((update_plist fsSample "f" "9" "8" false [] "P" "B").1, .ok false) := by
  refine ⟨by decide, ?_⟩
  exact (update_idempotent (by decide)
    (show update_plist fsSample "f" "9" "8" false [] "P" "B" =
        ((update_plist fsSample "f" "9" "8" false [] "P" "B").1, .ok true)
      from rfl)).1
